import Mathlib

/-!
Verification of the word-trans document translation engine.

Part 1 models the DOCX segmentation/reinsertion engine
(`test/create-test-docx.ts`, functions `collectWtNodes`,
`extractSegmentsByParagraph`, `distributeTranslation`, `parseDocx`,
`writeDocx`).  The fast-xml-parser `preserveOrder` output is a tree whose
nodes are either text objects (a `#text` key) or single-tag element objects
(tag key mapping to the child list, plus an optional `:@` attribute map).
We model it as the mutual inductive `XItem`/`XForest`.  JavaScript object
references to `w:t` text nodes (the `wtNodes` array of a segment) are
modelled as paths from the document root: a path selects a child by
position at each level, ending at a text node.

Part 2 models the job pipeline state machine (`src/server.ts`,
`processJob`) as a trace-producing function over an environment that fixes
the outcome of every external stage call and the value of the shared
`cancelled` flag at each read.
-/

namespace WordTrans

/-! Parsed XML tree item: either a text node (an object with a `#text` key)
or an element (an object with a single tag key, attributes, and a child
list). -/
mutual
inductive XItem where
  | text (s : String)
  | elem (tag : String) (attrs : List (String × String)) (children : XForest)

inductive XForest where
  | nil
  | cons (hd : XItem) (tl : XForest)
end

mutual

def XItem.decEq : (a b : XItem) → Decidable (a = b)
  | .text s, .text t =>
    match decEq s t with
    | isTrue h => isTrue (by rw [h])
    | isFalse h => isFalse (by simp only [XItem.text.injEq]; exact h)
  | .text _, .elem _ _ _ => isFalse (by intro h; exact XItem.noConfusion h)
  | .elem _ _ _, .text _ => isFalse (by intro h; exact XItem.noConfusion h)
  | .elem t1 a1 c1, .elem t2 a2 c2 =>
    match decEq t1 t2, decEq a1 a2, XForest.decEq c1 c2 with
    | isTrue h1, isTrue h2, isTrue h3 => isTrue (by rw [h1, h2, h3])
    | isFalse h1, _, _ => isFalse (by simp only [XItem.elem.injEq]; tauto)
    | _, isFalse h2, _ => isFalse (by simp only [XItem.elem.injEq]; tauto)
    | _, _, isFalse h3 => isFalse (by simp only [XItem.elem.injEq]; tauto)

def XForest.decEq : (a b : XForest) → Decidable (a = b)
  | .nil, .nil => isTrue rfl
  | .nil, .cons _ _ => isFalse (by intro h; exact XForest.noConfusion h)
  | .cons _ _, .nil => isFalse (by intro h; exact XForest.noConfusion h)
  | .cons c1 cs1, .cons c2 cs2 =>
    match XItem.decEq c1 c2, XForest.decEq cs1 cs2 with
    | isTrue h1, isTrue h2 => isTrue (by rw [h1, h2])
    | isFalse h1, _ => isFalse (by simp only [XForest.cons.injEq]; tauto)
    | _, isFalse h2 => isFalse (by simp only [XForest.cons.injEq]; tauto)

end

instance : DecidableEq XItem := XItem.decEq

instance : DecidableEq XForest := XForest.decEq

/-- Path from a node to a descendant text node: a child index at each
level.  For a forest, head index selects the child; for an element the
path continues into its child forest. -/
abbrev Path := List Nat

/-! Read the text content at a path (the JavaScript `wt["#text"]` read
through a stored node reference). -/
mutual
def getTextI : XItem → Path → Option String
  | .text s, [] => some s
  | .text _, _ :: _ => none
  | .elem _ _ cs, p => getTextF cs p

def getTextF : XForest → Path → Option String
  | .nil, _ => none
  | .cons _ _, [] => none
  | .cons c _, 0 :: q => getTextI c q
  | .cons _ cs, (i + 1) :: q => getTextF cs (i :: q)
end

/-! Write the text content at a path (the JavaScript
`wt["#text"] = value` assignment through a stored node reference).  The
tree structure is never changed: only a text node exactly at the path is
replaced. -/
mutual
def setTextI : XItem → Path → String → XItem
  | .text _, [], t => .text t
  | .text s, _ :: _, _ => .text s
  | .elem tag a cs, p, t => .elem tag a (setTextF cs p t)

def setTextF : XForest → Path → String → XForest
  | .nil, _, _ => .nil
  | .cons c cs, [], _ => .cons c cs
  | .cons c cs, 0 :: q, t => .cons (setTextI c q t) cs
  | .cons c cs, (i + 1) :: q, t => .cons c (setTextF cs (i :: q) t)
end

/-- Bump the leading child index of a (nonempty) relative path by one. -/
def shiftPath : Path → Path
  | [] => []
  | i :: q => (i + 1) :: q

/-- Paths of the text children of a `w:t` element's child forest: the
items of `wtContent` that are objects with a `#text` key
(`collectWtNodes`, `w:t` branch).  Element children are skipped without
recursion, as in the source. -/
def wtTextRefs : XForest → List Path
  | .nil => []
  | .cons (.text _) cs => [0] :: (wtTextRefs cs).map shiftPath
  | .cons (.elem _ _ _) cs => (wtTextRefs cs).map shiftPath

/-! `collectWtNodes`: collect every `w:t` text node in document order.
On a `w:t` element its text children are collected and the traversal
stops; any other element is descended into (the `:@` attribute key and
`#text` keys are not children here, matching the source's skips).
Returns the references (paths) to the collected nodes. -/
mutual
def collectWtNodes : XItem → List Path
  | .text _ => []
  | .elem tag _ cs =>
    if tag = "w:t" then wtTextRefs cs else collectWtNodesF cs

def collectWtNodesF : XForest → List Path
  | .nil => []
  | .cons c cs =>
    (collectWtNodes c).map (fun q => 0 :: q) ++ (collectWtNodesF cs).map shiftPath
end

/-- A text segment (`DocxSegment`): id, merged paragraph text, optional
translation, and the references to the `w:t` nodes it spans. -/
structure DocxSegment where
  id : Nat
  text : String
  translated : Option String := none
  wtNodes : List Path
deriving DecidableEq, Repr

/-- The spec calls the `wtNodes` back-references `runRefs`. -/
def DocxSegment.runRefs (s : DocxSegment) : List Path := s.wtNodes

/-- The spec calls the merged paragraph text `sourceText`. -/
def DocxSegment.sourceText (s : DocxSegment) : String := s.text

/-- Merged text of a paragraph: each collected node's `#text`, joined with
no separator (`wtNodes.map((wt) => String(wt["#text"])).join("")`). -/
def mergedTextOf (cs : XForest) (refs : List Path) : String :=
  String.join (refs.map fun p => (getTextF cs p).getD "")

/-- JavaScript `String.prototype.trim`: drop leading and trailing
whitespace. -/
def jsTrim (s : String) : String :=
  ⟨((s.data.dropWhile Char.isWhitespace).reverse.dropWhile Char.isWhitespace).reverse⟩

/-! `extractSegmentsByParagraph`: one traversal; on a `w:p` element,
collect its `w:t` nodes, and if there is at least one and the merged text
is nonempty after trimming, emit one segment and advance the id counter;
paragraph children are not recursed into further.  Other elements are
transparent.  Segment references are produced relative to the node being
traversed and lifted to absolute document paths on the way out. -/
mutual
def extractSegmentsByParagraph : XItem → Nat → List DocxSegment × Nat
  | .text _, n => ([], n)
  | .elem tag _ cs, n =>
    if tag = "w:p" then
      let refs := collectWtNodesF cs
      let merged := mergedTextOf cs refs
      if refs.length ≠ 0 then
        if jsTrim merged ≠ "" then
          ([{ id := n, text := merged, translated := none, wtNodes := refs }], n + 1)
        else ([], n)
      else ([], n)
    else extractSegmentsByParagraphF cs n
termination_by structural c _ => c

def extractSegmentsByParagraphF : XForest → Nat → List DocxSegment × Nat
  | .nil, n => ([], n)
  | .cons c cs, n =>
    let r1 := extractSegmentsByParagraph c n
    let r2 := extractSegmentsByParagraphF cs r1.2
    ((r1.1.map fun s => { s with wtNodes := s.wtNodes.map (fun q => 0 :: q) }) ++
     (r2.1.map fun s => { s with wtNodes := s.wtNodes.map shiftPath }), r2.2)
termination_by structural cs _ => cs
end

/-- Extraction over a whole parsed document (the parser's top level is a
forest), starting the global segment-id counter at 0. -/
def extractAll (doc : XForest) : List DocxSegment :=
  (extractSegmentsByParagraphF doc 0).1

/-- `distributeTranslation`: skip when `translated` is absent or empty
(JavaScript falsiness of `!segment.translated`) or when there are no
referenced nodes; otherwise write the whole translation into the first
referenced node and clear every other referenced node. -/
def distributeTranslation (doc : XForest) (seg : DocxSegment) : XForest :=
  match seg.translated with
  | none => doc
  | some t =>
    if t = "" then doc
    else
      match seg.wtNodes with
      | [] => doc
      | r :: rs => rs.foldl (fun d q => setTextF d q "") (setTextF doc r t)

/-- The write-back loop of `writeDocx`: apply `distributeTranslation` to
every segment in order. -/
def distributeTranslations (doc : XForest) (segs : List DocxSegment) : XForest :=
  segs.foldl distributeTranslation doc

/-- The external translator mutates each segment's `translated` field in
place; modelled as setting the field from an assignment of translations
to segment ids. -/
def setTranslations (segs : List DocxSegment) (f : Nat → Option String) : List DocxSegment :=
  segs.map fun s => { s with translated := f s.id }

/-- Raw input bytes of an uploaded file. -/
abbrev Bytes := List Nat

/-- An opened archive: an association of entry names to entry contents
(the JSZip object at the level the source uses it: `zip.file(name)` reads
an entry, `zip.file(name, content)` replaces or adds one). -/
structure Zipf where
  entries : List (String × String)
deriving DecidableEq

/-- Entry lookup, first match by name. -/
def getEntry : List (String × String) → String → Option String
  | [], _ => none
  | (k', v') :: rest, k => if k' = k then some v' else getEntry rest k

/-- `zip.file(name)`: read an entry's content. -/
def Zipf.file (z : Zipf) (k : String) : Option String := getEntry z.entries k

/-- Entry update: replace the first entry with the given name, or append
a new one. -/
def setEntry : List (String × String) → String → String → List (String × String)
  | [], k, v => [(k, v)]
  | (k', v') :: rest, k, v =>
    if k' = k then (k, v) :: rest else (k', v') :: setEntry rest k v

/-- `zip.file(name, content)`: replace or add an entry. -/
def Zipf.setFile (z : Zipf) (k v : String) : Zipf := ⟨setEntry z.entries k v⟩

/-- The error taxonomy of `parseDocx`: the archive cannot be opened
(`JSZip.loadAsync` rejects), or the body entry `word/document.xml` is
absent (the explicit `Invalid DOCX: word/document.xml not found` throw). -/
inductive DocxError where
  | invalidContainer
  | missingBodyPart
deriving DecidableEq

/-- `ParsedDocx`: the opened archive, the parsed body tree, and the
extracted segments. -/
structure ParsedDocx where
  zip : Zipf
  documentXml : XForest
  segments : List DocxSegment

/-- `parseDocx`, abstracted over the two external libraries: `load`
models `JSZip.loadAsync` (`none` when the archive cannot be opened) and
`parseXml` models the `fast-xml-parser` `XMLParser.parse` call.  Open the
archive, read `word/document.xml` (failing when absent), parse it, and
extract the segments with the id counter starting at 0. -/
def parseDocx (load : Bytes → Option Zipf) (parseXml : String → XForest)
    (input : Bytes) : Except DocxError ParsedDocx :=
  match load input with
  | none => .error .invalidContainer
  | some zip =>
    match zip.file "word/document.xml" with
    | none => .error .missingBodyPart
    | some xmlString =>
      let documentXml := parseXml xmlString
      .ok { zip := zip, documentXml := documentXml, segments := extractAll documentXml }

/-- `writeDocx`, abstracted over the `XMLBuilder.build` serializer:
apply every segment's translation to the body tree, serialize it, and
replace the `word/document.xml` entry of the archive.  Returns the
repackaged archive. -/
def writeDocx (build : XForest → String) (parsed : ParsedDocx) : Zipf :=
  let newDocumentXml := distributeTranslations parsed.documentXml parsed.segments
  parsed.zip.setFile "word/document.xml" (build newDocumentXml)

namespace Pipeline

/-- Job lifecycle states (`jobs.ts` status strings). -/
inductive JobStatus where
  | queued
  | converting
  | parsingDocx
  | translating
  | qa
  | packing
  | done
  | error
  | cancelled
deriving DecidableEq, Repr

/-- The pipeline stages `processJob` invokes: PDF conversion, the
work-directory copy on the DOCX path, parsing, translation, QA, and the
`writeDocx` write-back. -/
inductive Stage where
  | convert
  | copy
  | parse
  | translate
  | qa
  | write
deriving DecidableEq, Repr

/-- One observable action of `processJob`, in program order: a mutation
of the job record, a read of the shared `cancelled` flag with the value
observed, a stage invocation, or the best-effort cleanup.  One
`updateJob(job, fields)` call of the source is one `update` event (the
call assigns all its fields synchronously); its arguments are the
optional new status, progress, step message and error message, and
whether `finishedAt` is stamped. -/
inductive Ev where
  | setStartedAt
  | update (status : Option JobStatus) (progress : Option Nat)
      (stepMessage : Option String) (errorMessage : Option String) (finishedAt : Bool)
  | finishJob (status : JobStatus)
  | setOutputPath
  | setTotalSegments (n : Nat)
  | check (observed : Bool)
  | stage (s : Stage)
  | cleanup
deriving DecidableEq, Repr

/-- Environment of one `processJob` run: whether the upload is a PDF, the
outcome of each external stage call (`none` = success, `some m` = the
call throws an exception whose `.message` is `m`), the segment count the
parser reports, and the value of the shared `cancelled` flag at its
`i`-th read (the flag is written concurrently by `cancelJob`, so each
read may see a different value). -/
structure Env where
  isPdf : Bool := false
  convertErr : Option String := none
  copyErr : Option String := none
  parseErr : Option String := none
  numSegments : Nat := 0
  translateErr : Option String := none
  qaErr : Option String := none
  writeErr : Option String := none
  cancelAt : Nat → Bool := fun _ => false

/-- The catch block of `processJob`: read `job.cancelled` once; if set,
swallow the exception and return; otherwise record an `error` transition
with the exception's message (`error.message || "Unknown error"`), a
failure step message, and a `finishedAt` stamp, in one `updateJob`
call. -/
def catchBlock (e : Env) (r : Nat) (m : String) : List Ev :=
  .check (e.cancelAt r) ::
  if e.cancelAt r then []
  else
    [.update (some .error) none (some "處理失敗")
      (some (if m = "" then "Unknown error" else m)) true]

/-- Steps 3-5 of `processJob` (translate, QA, pack), entered right after
the post-parse cancellation check; `r` is the index of the next
`cancelled` read. -/
def translateOnward (e : Env) (r : Nat) : List Ev :=
  .update (some .translating) (some 20) (some "翻譯中...") none false ::
  .stage .translate ::
  match e.translateErr with
  | some m => catchBlock e r m
  | none =>
    .check (e.cancelAt r) ::
    if e.cancelAt r then []
    else
      .stage .qa ::
      match e.qaErr with
      | some m => catchBlock e (r + 1) m
      | none =>
        .check (e.cancelAt (r + 1)) ::
        if e.cancelAt (r + 1) then []
        else
          .update (some .packing) (some 95) (some "正在打包翻譯後的文件...") none false ::
          .stage .write ::
          match e.writeErr with
          | some m => catchBlock e (r + 2) m
          | none =>
            [.setOutputPath, .finishJob .done,
             .update none none (some "完成！") none false, .cleanup]

/-- Step 2 of `processJob` (parse) and everything after it; `r` is the
index of the next `cancelled` read. -/
def parseOnward (e : Env) (r : Nat) : List Ev :=
  .update (some .parsingDocx) (some 15) (some "正在解析 DOCX 文件...") none false ::
  .stage .parse ::
  match e.parseErr with
  | some m => catchBlock e r m
  | none =>
    .setTotalSegments e.numSegments ::
    .check (e.cancelAt r) ::
    if e.cancelAt r then [] else translateOnward e (r + 1)

/-- `processJob` as the trace of observable actions it performs under a
given environment.  On the PDF path the conversion stage runs first and
is followed by a cancellation check; on the DOCX path the upload is
copied to the working directory with no check afterwards.  The `done`
tail models `job.outputPath = outputPath; finishJob(job, "done");
updateJob(job, stepMessage)` followed by the ignored-failure cleanup. -/
def processJob (e : Env) : List Ev :=
  .setStartedAt ::
  if e.isPdf then
    .update (some .converting) (some 5) (some "正在將 PDF 轉換為 DOCX...") none false ::
    .stage .convert ::
    match e.convertErr with
    | some m => catchBlock e 0 m
    | none =>
      .check (e.cancelAt 0) ::
      if e.cancelAt 0 then [] else parseOnward e 1
  else
    .stage .copy ::
    match e.copyErr with
    | some m => catchBlock e 0 m
    | none => parseOnward e 0

/-- The job record (`JobState`), restricted to the fields the pipeline
mutates.  `startedAt`/`finishedAt`/`outputPath` record whether the field
has been set. -/
structure JobState where
  status : JobStatus := .queued
  progress : Nat := 0
  stepMessage : String := ""
  errorMessage : Option String := none
  startedAt : Bool := false
  finishedAt : Bool := false
  totalSegments : Option Nat := none
  outputPath : Bool := false
deriving DecidableEq, Repr

/-- Modelled from the spec: `jobs.ts` (`createJob`, `updateJob`,
`finishJob`) is not under `src/`.  Per the spec, a job is created in
state `queued` (progress 0, nothing else set); `updateJob` assigns
exactly the fields given to it; `finishJob` sets the terminal status
with `finishedAt` stamped and progress 100 at `done`.  `applyEv`
realizes these mutations one event at a time; checks, stage invocations
and cleanup do not mutate the job. -/
def applyEv (j : JobState) : Ev → JobState
  | .setStartedAt => { j with startedAt := true }
  | .update s p msg em fin =>
    { j with
      status := s.getD j.status,
      progress := p.getD j.progress,
      stepMessage := msg.getD j.stepMessage,
      errorMessage := match em with | some m => some m | none => j.errorMessage,
      finishedAt := j.finishedAt || fin }
  | .finishJob s => { j with status := s, finishedAt := true, progress := 100 }
  | .setOutputPath => { j with outputPath := true }
  | .setTotalSegments n => { j with totalSegments := some n }
  | .check _ => j
  | .stage _ => j
  | .cleanup => j

/-- Modelled from the spec: `createJob` yields a fresh `queued` job. -/
def createJob : JobState := {}

/-- The job record at the end of a `processJob` run. -/
def finalJob (e : Env) : JobState := (processJob e).foldl applyEv createJob

/-- The successive job records during a `processJob` run, starting from
the freshly created job. -/
def jobStates (e : Env) : List JobState := (processJob e).scanl applyEv createJob

end Pipeline

/-! Structure of the tree, used to state that write-back touches nothing
but text content. -/

/-! Erase every text content, keeping all markup (tags, attributes,
shape) intact. -/
mutual
def stripTexts : XItem → XItem
  | .text _ => .text ""
  | .elem tag a cs => .elem tag a (stripTextsF cs)

def stripTextsF : XForest → XForest
  | .nil => .nil
  | .cons c cs => .cons (stripTexts c) (stripTextsF cs)
end

/-! Number of text (leaf) nodes in the tree. -/
mutual
def countTexts : XItem → Nat
  | .text _ => 1
  | .elem _ _ cs => countTextsF cs

def countTextsF : XForest → Nat
  | .nil => 0
  | .cons c cs => countTexts c + countTextsF cs
end

/-! Basic read/write lemmas about the path-addressed text accessors. -/

mutual

theorem getTextI_setTextI_same : (c : XItem) → (p : Path) → (s t : String) →
    getTextI c p = some s → getTextI (setTextI c p t) p = some t
  | .text _, [], _, _, _ => by simp [getTextI, setTextI]
  | .text _, _ :: _, _, _, h => by simp [getTextI] at h
  | .elem tag a cs, p, s, t, h => by
    simp only [getTextI, setTextI] at h ⊢
    exact getTextF_setTextF_same cs p s t h

theorem getTextF_setTextF_same : (cs : XForest) → (p : Path) → (s t : String) →
    getTextF cs p = some s → getTextF (setTextF cs p t) p = some t
  | .nil, _, _, _, h => by simp [getTextF] at h
  | .cons _ _, [], _, _, h => by simp [getTextF] at h
  | .cons c cs, 0 :: q, s, t, h => by
    simp only [getTextF, setTextF] at h ⊢
    exact getTextI_setTextI_same c q s t h
  | .cons c cs, (i + 1) :: q, s, t, h => by
    simp only [getTextF, setTextF] at h ⊢
    exact getTextF_setTextF_same cs (i :: q) s t h

end

mutual

theorem getTextI_setTextI_other : (c : XItem) → (p q : Path) → (t : String) →
    q ≠ p → getTextI (setTextI c p t) q = getTextI c q
  | .text _, [], [], _, hne => absurd rfl hne
  | .text _, [], _ :: _, _, _ => by simp [getTextI, setTextI]
  | .text _, _ :: _, _, _, _ => by simp [setTextI]
  | .elem tag a cs, p, q, t, hne => by
    simp only [getTextI, setTextI]
    exact getTextF_setTextF_other cs p q t hne

theorem getTextF_setTextF_other : (cs : XForest) → (p q : Path) → (t : String) →
    q ≠ p → getTextF (setTextF cs p t) q = getTextF cs q
  | .nil, _, _, _, _ => by simp [setTextF]
  | .cons _ _, [], _, _, _ => by simp [setTextF]
  | .cons c cs, 0 :: p, [], t, _ => by simp [getTextF, setTextF]
  | .cons c cs, 0 :: p, 0 :: q, t, hne => by
    simp only [getTextF, setTextF]
    exact getTextI_setTextI_other c p q t (by intro h; exact hne (by rw [h]))
  | .cons c cs, 0 :: p, (j + 1) :: q, t, _ => by simp [getTextF, setTextF]
  | .cons c cs, (i + 1) :: p, [], t, _ => by simp [getTextF, setTextF]
  | .cons c cs, (i + 1) :: p, 0 :: q, t, _ => by simp [getTextF, setTextF]
  | .cons c cs, (i + 1) :: p, (j + 1) :: q, t, hne => by
    simp only [getTextF, setTextF]
    exact getTextF_setTextF_other cs (i :: p) (j :: q) t (by
      intro h
      cases h
      exact hne rfl)

end

mutual

theorem stripTexts_setTextI : (c : XItem) → (p : Path) → (t : String) →
    stripTexts (setTextI c p t) = stripTexts c
  | .text _, [], _ => by simp [setTextI, stripTexts]
  | .text _, _ :: _, _ => by simp [setTextI]
  | .elem tag a cs, p, t => by
    simp only [setTextI, stripTexts]
    rw [stripTextsF_setTextF cs p t]

theorem stripTextsF_setTextF : (cs : XForest) → (p : Path) → (t : String) →
    stripTextsF (setTextF cs p t) = stripTextsF cs
  | .nil, _, _ => by simp [setTextF]
  | .cons _ _, [], _ => by simp [setTextF]
  | .cons c cs, 0 :: q, t => by
    simp only [setTextF, stripTextsF]
    rw [stripTexts_setTextI c q t]
  | .cons c cs, (i + 1) :: q, t => by
    simp only [setTextF, stripTextsF]
    rw [stripTextsF_setTextF cs (i :: q) t]

end

mutual

theorem countTexts_setTextI : (c : XItem) → (p : Path) → (t : String) →
    countTexts (setTextI c p t) = countTexts c
  | .text _, [], _ => by simp [setTextI, countTexts]
  | .text _, _ :: _, _ => by simp [setTextI]
  | .elem tag a cs, p, t => by
    simp only [setTextI, countTexts]
    exact countTextsF_setTextF cs p t

theorem countTextsF_setTextF : (cs : XForest) → (p : Path) → (t : String) →
    countTextsF (setTextF cs p t) = countTextsF cs
  | .nil, _, _ => by simp [setTextF]
  | .cons _ _, [], _ => by simp [setTextF]
  | .cons c cs, 0 :: q, t => by
    simp only [setTextF, countTextsF]
    rw [countTexts_setTextI c q t]
  | .cons c cs, (i + 1) :: q, t => by
    simp only [setTextF, countTextsF]
    rw [countTextsF_setTextF cs (i :: q) t]

end

/-! Lemmas about the collected `w:t` references: every collected path
resolves to a text node, and the collected paths are pairwise distinct. -/

theorem getTextF_nilPath : ∀ cs : XForest, getTextF cs [] = none
  | .nil => rfl
  | .cons _ _ => rfl

theorem shiftPath_inj {p q : Path} (hp : p ≠ []) (hq : q ≠ [])
    (h : shiftPath p = shiftPath q) : p = q := by
  match p, q with
  | [], _ => exact absurd rfl hp
  | _ :: _, [] => exact absurd rfl hq
  | i :: p, j :: q =>
    simp only [shiftPath, List.cons.injEq] at h
    obtain ⟨hij, rfl⟩ := h
    have : i = j := by omega
    rw [this]

theorem getTextF_shiftPath (c : XItem) (cs : XForest) (p : Path) (hp : p ≠ []) :
    getTextF (.cons c cs) (shiftPath p) = getTextF cs p := by
  match p with
  | [] => exact absurd rfl hp
  | i :: q => simp [shiftPath, getTextF]

theorem wtTextRefs_shape : ∀ (cs : XForest), ∀ p ∈ wtTextRefs cs, ∃ i, p = [i]
  | .nil, p, hp => by simp [wtTextRefs] at hp
  | .cons (.text s) cs, p, hp => by
    simp only [wtTextRefs, List.mem_cons, List.mem_map] at hp
    rcases hp with h | ⟨q, hq, rfl⟩
    · exact ⟨0, h⟩
    · obtain ⟨i, rfl⟩ := wtTextRefs_shape cs q hq
      exact ⟨i + 1, rfl⟩
  | .cons (.elem tag a ccs) cs, p, hp => by
    simp only [wtTextRefs, List.mem_map] at hp
    obtain ⟨q, hq, rfl⟩ := hp
    obtain ⟨i, rfl⟩ := wtTextRefs_shape cs q hq
    exact ⟨i + 1, rfl⟩

theorem wtTextRefs_resolve : ∀ (cs : XForest), ∀ p ∈ wtTextRefs cs,
    ∃ s, getTextF cs p = some s
  | .nil, p, hp => by simp [wtTextRefs] at hp
  | .cons (.text s) cs, p, hp => by
    simp only [wtTextRefs, List.mem_cons, List.mem_map] at hp
    rcases hp with rfl | ⟨q, hq, rfl⟩
    · exact ⟨s, rfl⟩
    · obtain ⟨s', hs'⟩ := wtTextRefs_resolve cs q hq
      refine ⟨s', ?_⟩
      rw [getTextF_shiftPath _ _ _ ?_, hs']
      intro h
      rw [h, getTextF_nilPath] at hs'
      exact Option.noConfusion hs'
  | .cons (.elem tag a ccs) cs, p, hp => by
    simp only [wtTextRefs, List.mem_map] at hp
    obtain ⟨q, hq, rfl⟩ := hp
    obtain ⟨s', hs'⟩ := wtTextRefs_resolve cs q hq
    refine ⟨s', ?_⟩
    rw [getTextF_shiftPath _ _ _ ?_, hs']
    intro h
    rw [h, getTextF_nilPath] at hs'
    exact Option.noConfusion hs'

mutual

theorem collectWtNodes_resolve : (c : XItem) → ∀ p ∈ collectWtNodes c,
    ∃ s, getTextI c p = some s
  | .text s, p, hp => by simp [collectWtNodes] at hp
  | .elem tag a cs, p, hp => by
    simp only [collectWtNodes] at hp
    by_cases htag : tag = "w:t"
    · rw [if_pos htag] at hp
      simpa [getTextI] using wtTextRefs_resolve cs p hp
    · rw [if_neg htag] at hp
      simpa [getTextI] using collectWtNodesF_resolve cs p hp

theorem collectWtNodesF_resolve : (cs : XForest) → ∀ p ∈ collectWtNodesF cs,
    ∃ s, getTextF cs p = some s
  | .nil, p, hp => by simp [collectWtNodesF] at hp
  | .cons c cs, p, hp => by
    simp only [collectWtNodesF, List.mem_append, List.mem_map] at hp
    rcases hp with ⟨q, hq, rfl⟩ | ⟨q, hq, rfl⟩
    · simpa [getTextF] using collectWtNodes_resolve c q hq
    · obtain ⟨s', hs'⟩ := collectWtNodesF_resolve cs q hq
      refine ⟨s', ?_⟩
      rw [getTextF_shiftPath _ _ _ ?_, hs']
      intro h
      rw [h, getTextF_nilPath] at hs'
      exact Option.noConfusion hs'

end

/-- A collected reference is never the empty path. -/
theorem collectWtNodesF_ne_nil (cs : XForest) (p : Path)
    (hp : p ∈ collectWtNodesF cs) : p ≠ [] := by
  intro h
  obtain ⟨s, hs⟩ := collectWtNodesF_resolve cs p hp
  rw [h, getTextF_nilPath] at hs
  exact Option.noConfusion hs

theorem wtTextRefs_nodup : ∀ cs : XForest, (wtTextRefs cs).Nodup
  | .nil => List.nodup_nil
  | .cons (.text s) cs => by
    simp only [wtTextRefs, List.nodup_cons]
    constructor
    · intro hmem
      simp only [List.mem_map] at hmem
      obtain ⟨q, hq, habs⟩ := hmem
      obtain ⟨i, rfl⟩ := wtTextRefs_shape cs q hq
      simp [shiftPath] at habs
    · refine (wtTextRefs_nodup cs).map_on ?_
      intro x hx y hy hxy
      obtain ⟨i, rfl⟩ := wtTextRefs_shape cs x hx
      obtain ⟨j, rfl⟩ := wtTextRefs_shape cs y hy
      exact shiftPath_inj (by simp) (by simp) hxy
  | .cons (.elem tag a ccs) cs => by
    simp only [wtTextRefs]
    refine (wtTextRefs_nodup cs).map_on ?_
    intro x hx y hy hxy
    obtain ⟨i, rfl⟩ := wtTextRefs_shape cs x hx
    obtain ⟨j, rfl⟩ := wtTextRefs_shape cs y hy
    exact shiftPath_inj (by simp) (by simp) hxy

mutual

theorem collectWtNodes_nodup : (c : XItem) → (collectWtNodes c).Nodup
  | .text s => by simp [collectWtNodes]
  | .elem tag a cs => by
    simp only [collectWtNodes]
    by_cases htag : tag = "w:t"
    · rw [if_pos htag]
      exact wtTextRefs_nodup cs
    · rw [if_neg htag]
      exact collectWtNodesF_nodup cs

theorem collectWtNodesF_nodup : (cs : XForest) → (collectWtNodesF cs).Nodup
  | .nil => by simp [collectWtNodesF]
  | .cons c cs => by
    simp only [collectWtNodesF]
    rw [List.nodup_append]
    refine ⟨(collectWtNodes_nodup c).map_on ?_, (collectWtNodesF_nodup cs).map_on ?_, ?_⟩
    · intro x _ y _ hxy
      simpa using hxy
    · intro x hx y hy hxy
      exact shiftPath_inj (collectWtNodesF_ne_nil cs x hx) (collectWtNodesF_ne_nil cs y hy) hxy
    · intro p hp hp'
      simp only [List.mem_map] at hp hp'
      obtain ⟨q, _, rfl⟩ := hp
      obtain ⟨q', hq', habs⟩ := hp'
      have hne := collectWtNodesF_ne_nil cs q' hq'
      match q', hne with
      | i :: r, _ => simp [shiftPath] at habs

end

/-! Invariants of extraction: every emitted segment has no translation
yet, a nonempty reference list whose paths all resolve to text nodes,
and a merged text equal to the referenced texts joined in order;
moreover all references, across all emitted segments, are pairwise
distinct. -/

theorem getTextF_shiftPath_all (c : XItem) (cs : XForest) :
    ∀ p, getTextF (.cons c cs) (shiftPath p) = getTextF cs p
  | [] => by rw [shiftPath, getTextF_nilPath, getTextF_nilPath]
  | i :: q => by simp [shiftPath, getTextF]

/-- All back-references of a list of segments, in order. -/
def allRefs : List DocxSegment → List Path
  | [] => []
  | s :: rest => s.wtNodes ++ allRefs rest

theorem allRefs_append : ∀ l1 l2 : List DocxSegment,
    allRefs (l1 ++ l2) = allRefs l1 ++ allRefs l2
  | [], _ => rfl
  | s :: rest, l2 => by
    show s.wtNodes ++ allRefs (rest ++ l2) = (s.wtNodes ++ allRefs rest) ++ allRefs l2
    rw [allRefs_append rest l2, List.append_assoc]

theorem mem_allRefs {p : Path} : ∀ {l : List DocxSegment},
    p ∈ allRefs l ↔ ∃ s ∈ l, p ∈ s.wtNodes
  | [] => by simp [allRefs]
  | s :: rest => by
    simp only [allRefs, List.mem_append, mem_allRefs (l := rest), List.mem_cons]
    constructor
    · rintro (h | ⟨s', hs', hp⟩)
      · exact ⟨s, Or.inl rfl, h⟩
      · exact ⟨s', Or.inr hs', hp⟩
    · rintro ⟨s', rfl | hs', hp⟩
      · exact Or.inl hp
      · exact Or.inr ⟨s', hs', hp⟩

theorem allRefs_mapRefs (f : Path → Path) : ∀ l : List DocxSegment,
    allRefs (l.map fun s => { s with wtNodes := s.wtNodes.map f }) = (allRefs l).map f
  | [] => rfl
  | s :: rest => by
    simp only [List.map_cons, allRefs, allRefs_mapRefs f rest, List.map_append]

theorem allRefs_setTranslations (f : Nat → Option String) : ∀ l : List DocxSegment,
    allRefs (setTranslations l f) = allRefs l
  | [] => rfl
  | s :: rest => by
    simp only [setTranslations, List.map_cons, allRefs]
    rw [← setTranslations, allRefs_setTranslations f rest]

mutual

theorem extractSeg_inv : (c : XItem) → (n : Nat) →
    ∀ seg ∈ (extractSegmentsByParagraph c n).1,
    seg.translated = none ∧ seg.wtNodes ≠ [] ∧
    (∀ p ∈ seg.wtNodes, ∃ s, getTextI c p = some s) ∧
    seg.text = String.join (seg.wtNodes.map fun p => (getTextI c p).getD "")
  | .text s, n, seg, hseg => by simp [extractSegmentsByParagraph] at hseg
  | .elem tag a cs, n, seg, hseg => by
    simp only [extractSegmentsByParagraph] at hseg
    by_cases htag : tag = "w:p"
    · rw [if_pos htag] at hseg
      by_cases hlen : (collectWtNodesF cs).length ≠ 0
      · rw [if_pos hlen] at hseg
        by_cases htrim : jsTrim (mergedTextOf cs (collectWtNodesF cs)) ≠ ""
        · rw [if_pos htrim] at hseg
          simp only [List.mem_singleton] at hseg
          subst hseg
          refine ⟨rfl, ?_, ?_, ?_⟩
          · intro h
            have h' : collectWtNodesF cs = [] := h
            rw [h'] at hlen
            simp at hlen
          · intro p hp
            simpa [getTextI] using collectWtNodesF_resolve cs p hp
          · simp [mergedTextOf, getTextI]
        · rw [if_neg htrim] at hseg
          simp at hseg
      · rw [if_neg hlen] at hseg
        simp at hseg
    · rw [if_neg htag] at hseg
      have h := extractSegF_inv cs n seg hseg
      simpa [getTextI] using h

theorem extractSegF_inv : (cs : XForest) → (n : Nat) →
    ∀ seg ∈ (extractSegmentsByParagraphF cs n).1,
    seg.translated = none ∧ seg.wtNodes ≠ [] ∧
    (∀ p ∈ seg.wtNodes, ∃ s, getTextF cs p = some s) ∧
    seg.text = String.join (seg.wtNodes.map fun p => (getTextF cs p).getD "")
  | .nil, n, seg, hseg => by simp [extractSegmentsByParagraphF] at hseg
  | .cons c cs, n, seg, hseg => by
    simp only [extractSegmentsByParagraphF, List.mem_append, List.mem_map] at hseg
    rcases hseg with ⟨s, hs, rfl⟩ | ⟨s, hs, rfl⟩
    · obtain ⟨h1, h2, h3, h4⟩ := extractSeg_inv c n s hs
      refine ⟨h1, by simpa using h2, ?_, ?_⟩
      · intro p hp
        simp only [List.mem_map] at hp
        obtain ⟨q, hq, rfl⟩ := hp
        simpa [getTextF] using h3 q hq
      · have hfun : ((fun p => (getTextF (XForest.cons c cs) p).getD "") ∘ fun q => 0 :: q)
            = fun q => (getTextI c q).getD "" := by
          funext q
          simp [Function.comp, getTextF]
        simp only [List.map_map, hfun]
        exact h4
    · obtain ⟨h1, h2, h3, h4⟩ :=
        extractSegF_inv cs (extractSegmentsByParagraph c n).2 s hs
      refine ⟨h1, by simpa using h2, ?_, ?_⟩
      · intro p hp
        simp only [List.mem_map] at hp
        obtain ⟨q, hq, rfl⟩ := hp
        rw [getTextF_shiftPath_all]
        exact h3 q hq
      · have hfun : ((fun p => (getTextF (XForest.cons c cs) p).getD "") ∘ shiftPath)
            = fun q => (getTextF cs q).getD "" := by
          funext q
          simp [Function.comp, getTextF_shiftPath_all]
        simp only [List.map_map, hfun]
        exact h4

end

/-- Every reference emitted by extraction over a forest is a nonempty
path. -/
theorem extractSegF_refs_ne_nil (cs : XForest) (n : Nat) :
    ∀ p ∈ allRefs (extractSegmentsByParagraphF cs n).1, p ≠ [] := by
  intro p hp hnil
  obtain ⟨s, hs, hps⟩ := mem_allRefs.mp hp
  obtain ⟨-, -, h3, -⟩ := extractSegF_inv cs n s hs
  obtain ⟨t, ht⟩ := h3 p hps
  rw [hnil, getTextF_nilPath] at ht
  exact Option.noConfusion ht

mutual

theorem extractSeg_nodup : (c : XItem) → (n : Nat) →
    (allRefs (extractSegmentsByParagraph c n).1).Nodup
  | .text s, n => by simp [extractSegmentsByParagraph, allRefs]
  | .elem tag a cs, n => by
    simp only [extractSegmentsByParagraph]
    by_cases htag : tag = "w:p"
    · rw [if_pos htag]
      by_cases hlen : (collectWtNodesF cs).length ≠ 0
      · rw [if_pos hlen]
        by_cases htrim : jsTrim (mergedTextOf cs (collectWtNodesF cs)) ≠ ""
        · rw [if_pos htrim]
          simpa [allRefs] using collectWtNodesF_nodup cs
        · rw [if_neg htrim]
          simp [allRefs]
      · rw [if_neg hlen]
        simp [allRefs]
    · rw [if_neg htag]
      exact extractSegF_nodup cs n

theorem extractSegF_nodup : (cs : XForest) → (n : Nat) →
    (allRefs (extractSegmentsByParagraphF cs n).1).Nodup
  | .nil, n => by simp [extractSegmentsByParagraphF, allRefs]
  | .cons c cs, n => by
    simp only [extractSegmentsByParagraphF]
    rw [allRefs_append, allRefs_mapRefs, allRefs_mapRefs, List.nodup_append]
    refine ⟨(extractSeg_nodup c n).map_on ?_, ?_, ?_⟩
    · intro x _ y _ hxy
      simpa using hxy
    · refine (extractSegF_nodup cs (extractSegmentsByParagraph c n).2).map_on ?_
      intro x hx y hy hxy
      exact shiftPath_inj (extractSegF_refs_ne_nil cs _ x hx)
        (extractSegF_refs_ne_nil cs _ y hy) hxy
    · intro p hp hp'
      simp only [List.mem_map] at hp hp'
      obtain ⟨q, _, rfl⟩ := hp
      obtain ⟨q', hq', habs⟩ := hp'
      have hne := extractSegF_refs_ne_nil cs _ q' hq'
      match q', hne with
      | i :: r, _ => simp [shiftPath] at habs

end

/-! Write-back lemmas: `distributeTranslation` writes exactly the
segment's own referenced nodes and leaves every other node untouched;
the tree structure (markup, leaf count) is always preserved. -/

theorem getTextF_foldl_clear_other (p : Path) :
    ∀ (qs : List Path) (d : XForest), (∀ q ∈ qs, q ≠ p) →
    getTextF (qs.foldl (fun d q => setTextF d q "") d) p = getTextF d p
  | [], d, _ => rfl
  | q0 :: qs, d, h => by
    rw [List.foldl_cons]
    rw [getTextF_foldl_clear_other p qs _ (fun q hq => h q (List.mem_cons_of_mem q0 hq))]
    exact getTextF_setTextF_other d q0 p "" (fun hpq => h q0 (List.mem_cons_self q0 qs) hpq.symm)

theorem getTextF_foldl_clear_mem (p : Path) :
    ∀ (qs : List Path) (d : XForest), qs.Nodup → p ∈ qs →
    (∀ q ∈ qs, ∃ s, getTextF d q = some s) →
    getTextF (qs.foldl (fun d q => setTextF d q "") d) p = some ""
  | [], d, _, hmem, _ => absurd hmem (List.not_mem_nil p)
  | q0 :: qs, d, hnd, hmem, hres => by
    rw [List.foldl_cons]
    rw [List.nodup_cons] at hnd
    rcases List.mem_cons.mp hmem with rfl | hp
    · rw [getTextF_foldl_clear_other p qs _ (fun q hq habs => hnd.1 (habs ▸ hq))]
      obtain ⟨s, hs⟩ := hres p (List.mem_cons_self p qs)
      exact getTextF_setTextF_same d p s "" hs
    · refine getTextF_foldl_clear_mem p qs _ hnd.2 hp ?_
      intro q hq
      obtain ⟨s, hs⟩ := hres q (List.mem_cons_of_mem q0 hq)
      refine ⟨s, ?_⟩
      rw [getTextF_setTextF_other d q0 q "" (fun habs => hnd.1 (habs ▸ hq)), hs]

/-- Writing a segment with a present, nonempty translation puts the whole
translation in the first referenced node and empties the others. -/
theorem distributeTranslation_own (d : XForest) (seg : DocxSegment) (t : String)
    (r : Path) (rs : List Path) (htr : seg.translated = some t) (hne : t ≠ "")
    (hrefs : seg.wtNodes = r :: rs) (hnd : (r :: rs).Nodup)
    (hres : ∀ p ∈ r :: rs, ∃ s, getTextF d p = some s) :
    getTextF (distributeTranslation d seg) r = some t ∧
    ∀ q ∈ rs, getTextF (distributeTranslation d seg) q = some "" := by
  rw [List.nodup_cons] at hnd
  have hmain : distributeTranslation d seg =
      rs.foldl (fun d q => setTextF d q "") (setTextF d r t) := by
    simp only [distributeTranslation, htr, hrefs, if_neg hne]
  rw [hmain]
  constructor
  · rw [getTextF_foldl_clear_other r rs _ (fun q hq habs => hnd.1 (habs ▸ hq))]
    obtain ⟨s, hs⟩ := hres r (List.mem_cons_self r rs)
    exact getTextF_setTextF_same d r s t hs
  · intro q hq
    refine getTextF_foldl_clear_mem q rs _ hnd.2 hq ?_
    intro q' hq'
    obtain ⟨s, hs⟩ := hres q' (List.mem_cons_of_mem r hq')
    refine ⟨s, ?_⟩
    rw [getTextF_setTextF_other d r q' t (fun habs => hnd.1 (habs ▸ hq')), hs]

/-- Writing a segment leaves every node outside its own references
untouched. -/
theorem distributeTranslation_other (d : XForest) (seg : DocxSegment) (p : Path)
    (hp : p ∉ seg.wtNodes) :
    getTextF (distributeTranslation d seg) p = getTextF d p := by
  match htr : seg.translated with
  | none => simp only [distributeTranslation, htr]
  | some t =>
    by_cases hne : t = ""
    · simp only [distributeTranslation, htr, if_pos hne]
    · simp only [distributeTranslation, htr, if_neg hne]
      match hrefs : seg.wtNodes with
      | [] => simp only
      | r :: rs =>
        rw [hrefs] at hp
        simp only
        rw [getTextF_foldl_clear_other p rs _
          (fun q hq habs => hp (habs ▸ List.mem_cons_of_mem r hq))]
        exact getTextF_setTextF_other d r p t
          (fun habs => hp (habs ▸ List.mem_cons_self r rs))

/-- Write-back of a whole segment list leaves every node outside all the
segments' references untouched. -/
theorem distributeTranslations_other (p : Path) :
    ∀ (segs : List DocxSegment) (d : XForest), p ∉ allRefs segs →
    getTextF (distributeTranslations d segs) p = getTextF d p
  | [], d, _ => rfl
  | seg :: segs, d, hp => by
    rw [allRefs, List.mem_append] at hp
    push_neg at hp
    rw [distributeTranslations, List.foldl_cons]
    rw [← distributeTranslations]
    rw [distributeTranslations_other p segs _ hp.2]
    exact distributeTranslation_other d seg p hp.1

theorem countTextsF_distributeTranslation (d : XForest) (seg : DocxSegment) :
    countTextsF (distributeTranslation d seg) = countTextsF d := by
  have hfold : ∀ (qs : List Path) (d0 : XForest),
      countTextsF (qs.foldl (fun d q => setTextF d q "") d0) = countTextsF d0 := by
    intro qs
    induction qs with
    | nil => intro d0; rfl
    | cons q0 qs ih =>
      intro d0
      rw [List.foldl_cons, ih, countTextsF_setTextF]
  match htr : seg.translated with
  | none => simp only [distributeTranslation, htr]
  | some t =>
    by_cases hne : t = ""
    · simp only [distributeTranslation, htr, if_pos hne]
    · simp only [distributeTranslation, htr, if_neg hne]
      match hrefs : seg.wtNodes with
      | [] => simp only
      | r :: rs =>
        simp only
        rw [hfold, countTextsF_setTextF]

theorem stripTextsF_distributeTranslation (d : XForest) (seg : DocxSegment) :
    stripTextsF (distributeTranslation d seg) = stripTextsF d := by
  have hfold : ∀ (qs : List Path) (d0 : XForest),
      stripTextsF (qs.foldl (fun d q => setTextF d q "") d0) = stripTextsF d0 := by
    intro qs
    induction qs with
    | nil => intro d0; rfl
    | cons q0 qs ih =>
      intro d0
      rw [List.foldl_cons, ih, stripTextsF_setTextF]
  match htr : seg.translated with
  | none => simp only [distributeTranslation, htr]
  | some t =>
    by_cases hne : t = ""
    · simp only [distributeTranslation, htr, if_pos hne]
    · simp only [distributeTranslation, htr, if_neg hne]
      match hrefs : seg.wtNodes with
      | [] => simp only
      | r :: rs =>
        simp only
        rw [hfold, stripTextsF_setTextF]

theorem countTextsF_distributeTranslations :
    ∀ (segs : List DocxSegment) (d : XForest),
    countTextsF (distributeTranslations d segs) = countTextsF d
  | [], _ => rfl
  | seg :: segs, d => by
    rw [distributeTranslations, List.foldl_cons, ← distributeTranslations,
      countTextsF_distributeTranslations segs _, countTextsF_distributeTranslation]

theorem stripTextsF_distributeTranslations :
    ∀ (segs : List DocxSegment) (d : XForest),
    stripTextsF (distributeTranslations d segs) = stripTextsF d
  | [], _ => rfl
  | seg :: segs, d => by
    rw [distributeTranslations, List.foldl_cons, ← distributeTranslations,
      stripTextsF_distributeTranslations segs _, stripTextsF_distributeTranslation]

/-- Main write-back theorem over an arbitrary segment list whose
references are pairwise distinct and resolve in the document: for a
segment with a present, nonempty translation, after the whole write-back
the first referenced node holds the translation and the others are
empty. -/
theorem distributeTranslations_main (doc : XForest) (segs : List DocxSegment)
    (hnd : (allRefs segs).Nodup)
    (hres : ∀ p ∈ allRefs segs, ∃ s, getTextF doc p = some s)
    (seg : DocxSegment) (hseg : seg ∈ segs) (t : String)
    (htr : seg.translated = some t) (hne : t ≠ "")
    (r : Path) (rs : List Path) (hrefs : seg.wtNodes = r :: rs) :
    getTextF (distributeTranslations doc segs) r = some t ∧
    ∀ q ∈ rs, getTextF (distributeTranslations doc segs) q = some "" := by
  obtain ⟨l1, l2, rfl⟩ := List.append_of_mem hseg
  rw [allRefs_append, allRefs] at hnd hres
  rw [List.nodup_append] at hnd
  obtain ⟨hnd1, hnd2, hdisj⟩ := hnd
  rw [List.nodup_append] at hnd2
  obtain ⟨hndseg, hnd3, hdisj2⟩ := hnd2
  have hsplit : distributeTranslations doc (l1 ++ seg :: l2) =
      distributeTranslations
        (distributeTranslation (distributeTranslations doc l1) seg) l2 := by
    rw [distributeTranslations, List.foldl_append, List.foldl_cons]
    rfl
  rw [hsplit]
  have hres1 : ∀ p ∈ seg.wtNodes, ∃ s,
      getTextF (distributeTranslations doc l1) p = some s := by
    intro p hp
    obtain ⟨s, hs⟩ := hres p (by
      rw [List.mem_append, List.mem_append]
      exact Or.inr (Or.inl hp))
    refine ⟨s, ?_⟩
    rw [distributeTranslations_other p l1 doc
      (fun habs => hdisj habs (List.mem_append.mpr (Or.inl hp))), hs]
  have hown := distributeTranslation_own (distributeTranslations doc l1) seg t r rs
    htr hne hrefs (hrefs ▸ hndseg) (hrefs ▸ hres1)
  have hnotin2 : ∀ p ∈ seg.wtNodes, p ∉ allRefs l2 := by
    intro p hp habs
    exact hdisj2 hp habs
  constructor
  · rw [distributeTranslations_other r l2 _ (hnotin2 r (by rw [hrefs]; exact List.mem_cons_self r rs))]
    exact hown.1
  · intro q hq
    rw [distributeTranslations_other q l2 _ (hnotin2 q (by rw [hrefs]; exact List.mem_cons_of_mem r hq))]
    exact hown.2 q hq


/-! No-op cases of write-back, and transport of the extraction facts to
the translated segment list. -/

theorem distributeTranslation_none (d : XForest) (seg : DocxSegment)
    (h : seg.translated = none) : distributeTranslation d seg = d := by
  simp only [distributeTranslation, h]

theorem distributeTranslation_empty (d : XForest) (seg : DocxSegment)
    (h : seg.translated = some "") : distributeTranslation d seg = d := by
  simp only [distributeTranslation, h, if_pos]

theorem distributeTranslations_untranslated :
    ∀ (segs : List DocxSegment) (d : XForest), (∀ seg ∈ segs, seg.translated = none) →
    distributeTranslations d segs = d
  | [], _, _ => rfl
  | seg :: segs, d, h => by
    rw [distributeTranslations, List.foldl_cons, ← distributeTranslations,
      distributeTranslation_none d seg (h seg (List.mem_cons_self seg segs))]
    exact distributeTranslations_untranslated segs d
      (fun s hs => h s (List.mem_cons_of_mem seg hs))

/-- A segment whose translation is present but empty contributes nothing
to write-back, and no other segment touches its referenced nodes. -/
theorem distributeTranslations_empty_translation (doc : XForest)
    (segs : List DocxSegment) (hnd : (allRefs segs).Nodup) (seg : DocxSegment)
    (hseg : seg ∈ segs) (htr : seg.translated = some "") :
    ∀ p ∈ seg.wtNodes, getTextF (distributeTranslations doc segs) p = getTextF doc p := by
  intro p hp
  obtain ⟨l1, l2, rfl⟩ := List.append_of_mem hseg
  rw [allRefs_append, allRefs, List.nodup_append] at hnd
  obtain ⟨hnd1, hnd2, hdisj⟩ := hnd
  rw [List.nodup_append] at hnd2
  obtain ⟨hndseg, hnd3, hdisj2⟩ := hnd2
  have hsplit : distributeTranslations doc (l1 ++ seg :: l2) =
      distributeTranslations
        (distributeTranslation (distributeTranslations doc l1) seg) l2 := by
    rw [distributeTranslations, List.foldl_append, List.foldl_cons]
    rfl
  rw [hsplit, distributeTranslation_empty _ seg htr]
  rw [distributeTranslations_other p l2 _ (fun habs => hdisj2 hp habs)]
  exact distributeTranslations_other p l1 doc
    (fun habs => hdisj habs (List.mem_append.mpr (Or.inl hp)))

/-- All references of the extraction output resolve in the document. -/
theorem extractAll_refs_resolve (doc : XForest) :
    ∀ p ∈ allRefs (extractAll doc), ∃ s, getTextF doc p = some s := by
  intro p hp
  obtain ⟨s, hs, hps⟩ := mem_allRefs.mp hp
  exact (extractSegF_inv doc 0 s hs).2.2.1 p hps

/-! Sample documents used to evaluate the theorems on concrete inputs. -/

/-- A `w:t` element holding one text node. -/
def mkWt (s : String) : XItem := .elem "w:t" [] (.cons (.text s) .nil)

/-- A `w:r` formatting run holding one `w:t` element. -/
def mkRun (s : String) : XItem := .elem "w:r" [] (.cons (mkWt s) .nil)

def listToForest : List XItem → XForest
  | [] => .nil
  | c :: cs => .cons c (listToForest cs)

/-- A `w:p` paragraph with one run per given string. -/
def mkPara (ss : List String) : XItem := .elem "w:p" [] (listToForest (ss.map mkRun))

/-- A body with a text paragraph and a whitespace-only paragraph. -/
def sampleDoc : XForest :=
  listToForest [.elem "w:body" [] (listToForest [mkPara ["Hello"], mkPara ["  "]])]

/-- A body with one paragraph split across three formatting runs. -/
def sampleDoc3 : XForest := listToForest [mkPara ["The ", "quick", " fox"]]

/-- The segment extracted from `sampleDoc3`, with a chosen translation. -/
def sampleSeg3 (tr : Option String) : DocxSegment :=
  ⟨0, "The quick fox", tr, [[0, 0, 0, 0], [0, 1, 0, 0], [0, 2, 0, 0]]⟩

/-- The segment extracted from `sampleDoc`, with a chosen translation. -/
def sampleSegHello (tr : Option String) : DocxSegment :=
  ⟨0, "Hello", tr, [[0, 0, 0, 0, 0]]⟩

/-- Entry update keeps every other entry unchanged. -/
theorem getEntry_setEntry_other :
    ∀ (es : List (String × String)) (k v q : String), q ≠ k →
    getEntry (setEntry es k v) q = getEntry es q
  | [], k, v, q, h => by
    simp only [setEntry, getEntry]
    rw [if_neg (fun habs => h habs.symm)]
  | (k0, v0) :: es, k, v, q, h => by
    by_cases hk : k0 = k
    · simp only [setEntry, if_pos hk, getEntry]
      rw [if_neg (fun habs : k = q => h habs.symm),
        if_neg (fun habs : k0 = q => h (hk ▸ habs).symm)]
    · simp only [setEntry, if_neg hk, getEntry]
      by_cases hq : k0 = q
      · rw [if_pos hq, if_pos hq]
      · rw [if_neg hq, if_neg hq]
        exact getEntry_setEntry_other es k v q h

/-! Claim theorems for the segmentation/reinsertion engine. -/

/-- C2: write-back of an extraction output in which no segment has a
translation set is a no-op: the document is unchanged, and in particular
every leaf referenced by every segment still holds its original text. -/
theorem roundtrip_noop (doc : XForest) :
    distributeTranslations doc (extractAll doc) = doc ∧
    ∀ seg ∈ extractAll doc, ∀ p ∈ seg.runRefs,
      getTextF (distributeTranslations doc (extractAll doc)) p = getTextF doc p := by
  have hid : distributeTranslations doc (extractAll doc) = doc :=
    distributeTranslations_untranslated (extractAll doc) doc
      (fun seg hseg => (extractSegF_inv doc 0 seg hseg).1)
  exact ⟨hid, fun seg _ p _ => by rw [hid]⟩

/-- Witness for C2 on a concrete document. -/
theorem roundtrip_noop_witness :
    distributeTranslations sampleDoc (extractAll sampleDoc) = sampleDoc :=
  (roundtrip_noop sampleDoc).1

/-- C3: every extracted segment has nonempty `runRefs`, each reference
resolves to a text leaf of the document, and `sourceText` equals the
concatenation, in document order with no separator, of the referenced
leaves' texts. -/
theorem extraction_segment_invariant (doc : XForest) (seg : DocxSegment)
    (hseg : seg ∈ extractAll doc) :
    seg.runRefs ≠ [] ∧
    (∀ p ∈ seg.runRefs, ∃ s, getTextF doc p = some s) ∧
    seg.sourceText = String.join (seg.runRefs.map fun p => (getTextF doc p).getD "") := by
  obtain ⟨h1, h2, h3, h4⟩ := extractSegF_inv doc 0 seg hseg
  exact ⟨h2, h3, h4⟩

/-- Witness for C3 on a paragraph split across three runs. -/
theorem extraction_segment_invariant_witness :
    sampleSeg3 none ∈ extractAll sampleDoc3 ∧
    ((sampleSeg3 none).runRefs ≠ [] ∧
     (∀ p ∈ (sampleSeg3 none).runRefs, ∃ s, getTextF sampleDoc3 p = some s) ∧
     (sampleSeg3 none).sourceText =
       String.join ((sampleSeg3 none).runRefs.map fun p => (getTextF sampleDoc3 p).getD "")) :=
  ⟨by decide, extraction_segment_invariant sampleDoc3 (sampleSeg3 none) (by decide)⟩

/-- C4: a paragraph node whose merged leaf text is empty after trimming
(in particular a whitespace-only paragraph, or one with no text leaves)
yields no segment and leaves the id counter unchanged; a paragraph whose
merged text is nonempty after trimming yields exactly one segment and
advances the counter by one. -/
theorem paragraph_extraction_cases (a : List (String × String)) (cs : XForest) (n : Nat) :
    (jsTrim (mergedTextOf cs (collectWtNodesF cs)) = "" →
      extractSegmentsByParagraph (.elem "w:p" a cs) n = ([], n)) ∧
    (jsTrim (mergedTextOf cs (collectWtNodesF cs)) ≠ "" →
      extractSegmentsByParagraph (.elem "w:p" a cs) n =
        ([{ id := n, text := mergedTextOf cs (collectWtNodesF cs), translated := none,
            wtNodes := collectWtNodesF cs }], n + 1)) := by
  constructor
  · intro htrim
    simp only [extractSegmentsByParagraph, eq_self_iff_true, ite_true]
    by_cases hlen : (collectWtNodesF cs).length ≠ 0
    · rw [if_pos hlen, if_neg (not_not_intro htrim)]
    · rw [if_neg hlen]
  · intro htrim
    have hlen : (collectWtNodesF cs).length ≠ 0 := by
      intro h0
      have hnil : collectWtNodesF cs = [] := List.length_eq_zero.mp h0
      rw [hnil] at htrim
      exact htrim rfl
    simp only [extractSegmentsByParagraph, eq_self_iff_true, ite_true]
    rw [if_pos hlen, if_pos htrim]

/-- Witness for C4: a whitespace-only paragraph yields nothing and keeps
the counter; a nonempty paragraph yields one segment and advances it. -/
theorem paragraph_extraction_cases_witness :
    extractSegmentsByParagraph (mkPara ["  "]) 5 = ([], 5) ∧
    extractSegmentsByParagraph (mkPara ["Hello"]) 5 =
      ([{ id := 5,
          text := mergedTextOf (listToForest (["Hello"].map mkRun))
            (collectWtNodesF (listToForest (["Hello"].map mkRun))),
          translated := none,
          wtNodes := collectWtNodesF (listToForest (["Hello"].map mkRun)) }], 6) :=
  ⟨(paragraph_extraction_cases [] (listToForest (["  "].map mkRun)) 5).1 (by decide),
   (paragraph_extraction_cases [] (listToForest (["Hello"].map mkRun)) 5).2 (by decide)⟩

/-- C1 counterexample: a segment whose `translatedText` is present but
empty is skipped by `distributeTranslation` (JavaScript falsiness), so
after write-back its first referenced leaf still holds the original text
rather than the (empty) translation the claim requires. -/
theorem writeback_empty_translation_counterexample :
    setTranslations (extractAll sampleDoc) (fun _ => some "") =
      [{ id := 0, text := "Hello", translated := some "", wtNodes := [[0, 0, 0, 0, 0]] }] ∧
    ¬ getTextF (distributeTranslations sampleDoc
        (setTranslations (extractAll sampleDoc) (fun _ => some ""))) [0, 0, 0, 0, 0] = some "" ∧
    getTextF (distributeTranslations sampleDoc
        (setTranslations (extractAll sampleDoc) (fun _ => some ""))) [0, 0, 0, 0, 0] =
      some "Hello" :=
  ⟨by decide, by decide, by decide⟩

/-- C1 (amended): for every segment of the write-back input whose
`translatedText` is present and nonempty, after write-back the first
referenced leaf holds the full translation, every other referenced leaf
holds the empty string, the total number of text leaves is unchanged,
and no markup other than leaf text content is modified. -/
theorem writeback_distributes_full_translation (doc : XForest)
    (f : Nat → Option String) (seg : DocxSegment)
    (hseg : seg ∈ setTranslations (extractAll doc) f)
    (t : String) (htr : seg.translated = some t) (hne : t ≠ "")
    (r : Path) (rs : List Path) (hrefs : seg.runRefs = r :: rs) :
    getTextF (distributeTranslations doc (setTranslations (extractAll doc) f)) r = some t ∧
    (∀ q ∈ rs,
      getTextF (distributeTranslations doc (setTranslations (extractAll doc) f)) q = some "") ∧
    countTextsF (distributeTranslations doc (setTranslations (extractAll doc) f)) =
      countTextsF doc ∧
    stripTextsF (distributeTranslations doc (setTranslations (extractAll doc) f)) =
      stripTextsF doc := by
  have hnd : (allRefs (setTranslations (extractAll doc) f)).Nodup := by
    rw [allRefs_setTranslations]
    exact extractSegF_nodup doc 0
  have hres : ∀ p ∈ allRefs (setTranslations (extractAll doc) f),
      ∃ s, getTextF doc p = some s := by
    rw [allRefs_setTranslations]
    exact extractAll_refs_resolve doc
  have h := distributeTranslations_main doc _ hnd hres seg hseg t htr hne r rs hrefs
  exact ⟨h.1, h.2, countTextsF_distributeTranslations _ _,
    stripTextsF_distributeTranslations _ _⟩

/-- Witness for amended C1 on a three-run paragraph with translation
`"X"`. -/
theorem writeback_distributes_full_translation_witness :
    getTextF (distributeTranslations sampleDoc3
      (setTranslations (extractAll sampleDoc3) (fun _ => some "X"))) [0, 0, 0, 0] = some "X" ∧
    (∀ q ∈ [[0, 1, 0, 0], [0, 2, 0, 0]],
      getTextF (distributeTranslations sampleDoc3
        (setTranslations (extractAll sampleDoc3) (fun _ => some "X"))) q = some "") ∧
    countTextsF (distributeTranslations sampleDoc3
      (setTranslations (extractAll sampleDoc3) (fun _ => some "X"))) = countTextsF sampleDoc3 ∧
    stripTextsF (distributeTranslations sampleDoc3
      (setTranslations (extractAll sampleDoc3) (fun _ => some "X"))) = stripTextsF sampleDoc3 :=
  writeback_distributes_full_translation sampleDoc3 (fun _ => some "X")
    (sampleSeg3 (some "X"))
    (by decide) "X" rfl (by decide) [0, 0, 0, 0] [[0, 1, 0, 0], [0, 2, 0, 0]] rfl

/-- C10: a segment whose `translatedText` is present but equal to the
empty string is treated like an untranslated segment: write-back leaves
all of its referenced leaves' text unchanged. -/
theorem empty_translation_preserves_leaves (doc : XForest) (f : Nat → Option String)
    (seg : DocxSegment) (hseg : seg ∈ setTranslations (extractAll doc) f)
    (htr : seg.translated = some "") :
    ∀ p ∈ seg.runRefs,
      getTextF (distributeTranslations doc (setTranslations (extractAll doc) f)) p =
        getTextF doc p := by
  have hnd : (allRefs (setTranslations (extractAll doc) f)).Nodup := by
    rw [allRefs_setTranslations]
    exact extractSegF_nodup doc 0
  exact distributeTranslations_empty_translation doc _ hnd seg hseg htr

/-- Witness for C10 on a concrete document. -/
theorem empty_translation_preserves_leaves_witness :
    getTextF (distributeTranslations sampleDoc
      (setTranslations (extractAll sampleDoc) (fun _ => some ""))) [0, 0, 0, 0, 0] =
      getTextF sampleDoc [0, 0, 0, 0, 0] :=
  empty_translation_preserves_leaves sampleDoc (fun _ => some "")
    (sampleSegHello (some "")) (by decide) rfl [0, 0, 0, 0, 0] (by decide)

/-- C7: `parseDocx` fails with the invalid-container error exactly when
the archive cannot be opened, fails with the missing-body-part error when
the archive opens but has no `word/document.xml` entry, and otherwise
succeeds with the document and its extracted segment list. -/
theorem parse_error_taxonomy (load : Bytes → Option Zipf)
    (parseXml : String → XForest) (input : Bytes) :
    (load input = none → parseDocx load parseXml input = .error .invalidContainer) ∧
    (∀ z, load input = some z → z.file "word/document.xml" = none →
      parseDocx load parseXml input = .error .missingBodyPart) ∧
    (∀ z xml, load input = some z → z.file "word/document.xml" = some xml →
      parseDocx load parseXml input =
        .ok { zip := z, documentXml := parseXml xml,
              segments := extractAll (parseXml xml) }) := by
  refine ⟨?_, ?_, ?_⟩
  · intro h
    simp only [parseDocx, h]
  · intro z h1 h2
    simp only [parseDocx, h1, h2]
  · intro z xml h1 h2
    simp only [parseDocx, h1, h2]

/-- Witness for C7 on three concrete loaders. -/
theorem parse_error_taxonomy_witness :
    parseDocx (fun _ => none) (fun _ => .nil) [] = .error .invalidContainer ∧
    parseDocx (fun _ => some ⟨[]⟩) (fun _ => .nil) [] = .error .missingBodyPart ∧
    parseDocx (fun _ => some ⟨[("word/document.xml", "body")]⟩) (fun _ => sampleDoc) [] =
      .ok { zip := ⟨[("word/document.xml", "body")]⟩, documentXml := sampleDoc,
            segments := extractAll sampleDoc } :=
  ⟨(parse_error_taxonomy (fun _ => none) (fun _ => .nil) []).1 rfl,
   (parse_error_taxonomy (fun _ => some ⟨[]⟩) (fun _ => .nil) []).2.1 ⟨[]⟩ rfl rfl,
   (parse_error_taxonomy (fun _ => some ⟨[("word/document.xml", "body")]⟩)
      (fun _ => sampleDoc) []).2.2 ⟨[("word/document.xml", "body")]⟩ "body" rfl (by decide)⟩

/-- C8: repackaging replaces only the body entry: every archive entry
other than `word/document.xml` is unchanged by `writeDocx`. -/
theorem writeDocx_frame (build : XForest → String) (parsed : ParsedDocx)
    (name : String) (hname : name ≠ "word/document.xml") :
    (writeDocx build parsed).file name = parsed.zip.file name :=
  getEntry_setEntry_other parsed.zip.entries "word/document.xml"
    (build (distributeTranslations parsed.documentXml parsed.segments)) name hname

/-- Witness for C8 on a concrete archive with a non-body entry. -/
theorem writeDocx_frame_witness :
    (writeDocx (fun _ => "built")
      { zip := ⟨[("styles.xml", "s"), ("word/document.xml", "d")]⟩,
        documentXml := sampleDoc, segments := extractAll sampleDoc }).file "styles.xml" =
    Zipf.file ⟨[("styles.xml", "s"), ("word/document.xml", "d")]⟩ "styles.xml" :=
  writeDocx_frame (fun _ => "built")
    { zip := ⟨[("styles.xml", "s"), ("word/document.xml", "d")]⟩,
      documentXml := sampleDoc, segments := extractAll sampleDoc } "styles.xml" (by decide)

namespace Pipeline

/-! Predicates over pipeline traces. -/

/-- Is the event a read of the cancelled flag? -/
def isCheckEv : Ev → Bool
  | .check _ => true
  | _ => false

/-- Is the event a read of the cancelled flag that observed it set? -/
def isCheckTrue : Ev → Bool
  | .check true => true
  | _ => false

/-- Every observation of a set cancelled flag ends the trace
immediately. -/
def stopsAtCancel : List Ev → Bool
  | [] => true
  | x :: rest => if isCheckTrue x then rest.isEmpty else stopsAtCancel rest

/-- Stages that the orchestrator follows with a cancellation check. -/
def needsCheckAfter : Stage → Bool
  | .convert => true
  | .parse => true
  | .translate => true
  | .qa => true
  | .copy => false
  | .write => false

/-- After every conversion, parse, translation and QA stage invocation,
some read of the cancelled flag occurs later in the trace. -/
def checksAfterStages : List Ev → Bool
  | [] => true
  | .stage s :: rest => (!needsCheckAfter s || rest.any isCheckEv) && checksAfterStages rest
  | _ :: rest => checksAfterStages rest

/-- The claim's checkpoint placement, literally: a cancellation check
occurs before the first stage invocation, between any two consecutive
stage invocations, and after the last one.  The two accumulator flags
track whether a stage has occurred and whether a check has occurred
since the last stage (or the start). -/
def checksAroundAux : Bool → Bool → List Ev → Bool
  | anyStage, _, .check _ :: rest => checksAroundAux anyStage true rest
  | _, cSince, .stage _ :: rest => cSince && checksAroundAux true false rest
  | anyStage, cSince, _ :: rest => checksAroundAux anyStage cSince rest
  | anyStage, cSince, [] => !anyStage || cSince

def checksAroundStages (tr : List Ev) : Bool := checksAroundAux false false tr

/-! The two checkpoint properties hold of every branch of `processJob`. -/

theorem catchBlock_stops (e : Env) (r : Nat) (m : String) :
    stopsAtCancel (catchBlock e r m) = true := by
  cases hc : e.cancelAt r <;>
    simp [catchBlock, hc, stopsAtCancel, isCheckTrue]

theorem catchBlock_checksAfter (e : Env) (r : Nat) (m : String) :
    checksAfterStages (catchBlock e r m) = true := by
  cases hc : e.cancelAt r <;>
    simp [catchBlock, hc, checksAfterStages]

theorem translateOnward_stops (e : Env) (r : Nat) :
    stopsAtCancel (translateOnward e r) = true := by
  rcases ht : e.translateErr with _ | m1 <;>
  rcases hq : e.qaErr with _ | m2 <;>
  rcases hw : e.writeErr with _ | m3 <;>
  cases hc1 : e.cancelAt r <;>
  cases hc2 : e.cancelAt (r + 1) <;>
  cases hc3 : e.cancelAt (r + 2) <;>
  simp [translateOnward, catchBlock, stopsAtCancel, isCheckTrue, ht, hq, hw, hc1, hc2, hc3]

theorem translateOnward_checksAfter (e : Env) (r : Nat) :
    checksAfterStages (translateOnward e r) = true := by
  rcases ht : e.translateErr with _ | m1 <;>
  rcases hq : e.qaErr with _ | m2 <;>
  rcases hw : e.writeErr with _ | m3 <;>
  cases hc1 : e.cancelAt r <;>
  cases hc2 : e.cancelAt (r + 1) <;>
  cases hc3 : e.cancelAt (r + 2) <;>
  simp [translateOnward, catchBlock, checksAfterStages, needsCheckAfter, isCheckEv,
    ht, hq, hw, hc1, hc2, hc3]

theorem stopsAtCancel_append_of (l tr : List Ev)
    (hl : l.all (fun x => !isCheckTrue x) = true)
    (htr : stopsAtCancel tr = true) : stopsAtCancel (l ++ tr) = true := by
  induction l with
  | nil => simpa using htr
  | cons x l ih =>
    simp only [List.all_cons, Bool.and_eq_true, Bool.not_eq_true'] at hl
    simp only [List.cons_append, stopsAtCancel]
    rw [if_neg (by rw [hl.1]; exact Bool.false_ne_true)]
    exact ih hl.2

theorem checksAfterStages_append_anyCheck (l tr : List Ev)
    (ha : tr.any isCheckEv = true) (htr : checksAfterStages tr = true) :
    checksAfterStages (l ++ tr) = true := by
  induction l with
  | nil => simpa using htr
  | cons x l ih =>
    match x with
    | .stage s =>
      simp only [List.cons_append, checksAfterStages, Bool.and_eq_true]
      refine ⟨?_, ih⟩
      simp [List.any_append, ha]
    | .setStartedAt | .update _ _ _ _ _ | .finishJob _ | .setOutputPath
    | .setTotalSegments _ | .check _ | .cleanup =>
      simp only [List.cons_append, checksAfterStages]
      exact ih

theorem catchBlock_any (e : Env) (r : Nat) (m : String) :
    (catchBlock e r m).any isCheckEv = true := by
  cases hc : e.cancelAt r <;> simp [catchBlock, hc, isCheckEv]

theorem translateOnward_any (e : Env) (r : Nat) :
    (translateOnward e r).any isCheckEv = true := by
  rcases ht : e.translateErr with _ | m1 <;>
  cases hc1 : e.cancelAt r <;>
  simp [translateOnward, catchBlock, isCheckEv, ht, hc1]

theorem parseOnward_any (e : Env) (r : Nat) :
    (parseOnward e r).any isCheckEv = true := by
  rcases hp : e.parseErr with _ | m <;>
  cases hc : e.cancelAt r <;>
  simp [parseOnward, catchBlock, isCheckEv, hp, hc]

theorem parseOnward_stops (e : Env) (r : Nat) :
    stopsAtCancel (parseOnward e r) = true := by
  rcases hp : e.parseErr with _ | m
  · cases hc : e.cancelAt r
    · have h := stopsAtCancel_append_of
        [.update (some .parsingDocx) (some 15) (some "正在解析 DOCX 文件...") none false,
         .stage .parse, .setTotalSegments e.numSegments, .check false]
        (translateOnward e (r + 1)) (by simp [isCheckTrue]) (translateOnward_stops e (r + 1))
      simp only [parseOnward, hp, hc, Bool.false_eq_true, if_false]
      exact h
    · simp [parseOnward, hp, hc, stopsAtCancel, isCheckTrue]
  · have h := stopsAtCancel_append_of
      [.update (some .parsingDocx) (some 15) (some "正在解析 DOCX 文件...") none false,
       .stage .parse]
      (catchBlock e r m) (by simp [isCheckTrue]) (catchBlock_stops e r m)
    simp only [parseOnward, hp]
    exact h

theorem parseOnward_checksAfter (e : Env) (r : Nat) :
    checksAfterStages (parseOnward e r) = true := by
  rcases hp : e.parseErr with _ | m
  · cases hc : e.cancelAt r
    · have h := checksAfterStages_append_anyCheck
        [.update (some .parsingDocx) (some 15) (some "正在解析 DOCX 文件...") none false,
         .stage .parse, .setTotalSegments e.numSegments, .check false]
        (translateOnward e (r + 1)) (translateOnward_any e (r + 1))
        (translateOnward_checksAfter e (r + 1))
      simp only [parseOnward, hp, hc, Bool.false_eq_true, if_false]
      exact h
    · simp [parseOnward, hp, hc, checksAfterStages, needsCheckAfter, isCheckEv]
  · have h := checksAfterStages_append_anyCheck
      [.update (some .parsingDocx) (some 15) (some "正在解析 DOCX 文件...") none false,
       .stage .parse]
      (catchBlock e r m) (catchBlock_any e r m) (catchBlock_checksAfter e r m)
    simp only [parseOnward, hp]
    exact h

theorem processJob_stops (e : Env) :
    stopsAtCancel (processJob e) = true := by
  cases hpdf : e.isPdf
  · rcases hcp : e.copyErr with _ | m
    · have h := stopsAtCancel_append_of [.setStartedAt, .stage .copy]
        (parseOnward e 0) (by simp [isCheckTrue]) (parseOnward_stops e 0)
      simp only [processJob, hpdf, Bool.false_eq_true, if_false, hcp]
      exact h
    · have h := stopsAtCancel_append_of [.setStartedAt, .stage .copy]
        (catchBlock e 0 m) (by simp [isCheckTrue]) (catchBlock_stops e 0 m)
      simp only [processJob, hpdf, Bool.false_eq_true, if_false, hcp]
      exact h
  · rcases hcv : e.convertErr with _ | m
    · cases hc0 : e.cancelAt 0
      · have h := stopsAtCancel_append_of
          [.setStartedAt,
           .update (some .converting) (some 5) (some "正在將 PDF 轉換為 DOCX...") none false,
           .stage .convert, .check false]
          (parseOnward e 1) (by simp [isCheckTrue]) (parseOnward_stops e 1)
        simp only [processJob, hpdf, if_true, hcv, hc0, Bool.false_eq_true, if_false]
        exact h
      · simp [processJob, hpdf, hcv, hc0, stopsAtCancel, isCheckTrue]
    · have h := stopsAtCancel_append_of
        [.setStartedAt,
         .update (some .converting) (some 5) (some "正在將 PDF 轉換為 DOCX...") none false,
         .stage .convert]
        (catchBlock e 0 m) (by simp [isCheckTrue]) (catchBlock_stops e 0 m)
      simp only [processJob, hpdf, if_true, hcv]
      exact h

theorem processJob_checksAfter (e : Env) :
    checksAfterStages (processJob e) = true := by
  cases hpdf : e.isPdf
  · rcases hcp : e.copyErr with _ | m
    · have h := checksAfterStages_append_anyCheck [.setStartedAt, .stage .copy]
        (parseOnward e 0) (parseOnward_any e 0) (parseOnward_checksAfter e 0)
      simp only [processJob, hpdf, Bool.false_eq_true, if_false, hcp]
      exact h
    · have h := checksAfterStages_append_anyCheck [.setStartedAt, .stage .copy]
        (catchBlock e 0 m) (catchBlock_any e 0 m) (catchBlock_checksAfter e 0 m)
      simp only [processJob, hpdf, Bool.false_eq_true, if_false, hcp]
      exact h
  · rcases hcv : e.convertErr with _ | m
    · cases hc0 : e.cancelAt 0
      · have h := checksAfterStages_append_anyCheck
          [.setStartedAt,
           .update (some .converting) (some 5) (some "正在將 PDF 轉換為 DOCX...") none false,
           .stage .convert, .check false]
          (parseOnward e 1) (parseOnward_any e 1) (parseOnward_checksAfter e 1)
        simp only [processJob, hpdf, if_true, hcv, hc0, Bool.false_eq_true, if_false]
        exact h
      · simp [processJob, hpdf, hcv, hc0, checksAfterStages, needsCheckAfter, isCheckEv]
    · have h := checksAfterStages_append_anyCheck
        [.setStartedAt,
         .update (some .converting) (some 5) (some "正在將 PDF 轉換為 DOCX...") none false,
         .stage .convert]
        (catchBlock e 0 m) (catchBlock_any e 0 m) (catchBlock_checksAfter e 0 m)
      simp only [processJob, hpdf, if_true, hcv]
      exact h

/-- In a trace where every observed-set check is final, the suffix after
an observed-set check is empty. -/
theorem stopsAtCancel_split :
    ∀ (t1 : List Ev) (tr t2 : List Ev), stopsAtCancel tr = true →
    tr = t1 ++ .check true :: t2 → t2 = []
  | [], tr, t2, hs, heq => by
    subst heq
    simp only [List.nil_append, stopsAtCancel, isCheckTrue, if_pos] at hs
    exact List.isEmpty_iff.mp hs
  | x :: t1, tr, t2, hs, heq => by
    subst heq
    simp only [List.cons_append, stopsAtCancel] at hs
    by_cases hx : isCheckTrue x = true
    · rw [if_pos hx] at hs
      simp at hs
    · rw [if_neg hx] at hs
      exact stopsAtCancel_split t1 _ t2 hs rfl

end Pipeline

namespace Pipeline

/-! The error path: which exception reaches the catch block, and what the
job record looks like afterwards. -/

/-- Events that neither set `errorMessage`, stamp `finishedAt`, set
`outputPath`, nor move the status to a terminal state. -/
def benignEv : Ev → Bool
  | .update s _ _ em fin =>
    (match s with
     | some .done => false
     | some .error => false
     | _ => true) && em.isNone && !fin
  | .finishJob _ => false
  | .setOutputPath => false
  | _ => true

/-- The message and catch-read index of the first exception to reach the
catch block, for the translate/QA/pack stages entered with next read
index `r` (mirrors `translateOnward`). -/
def transError (e : Env) (r : Nat) : Option (String × Nat) :=
  match e.translateErr with
  | some m => some (m, r)
  | none =>
    if e.cancelAt r then none
    else
      match e.qaErr with
      | some m => some (m, r + 1)
      | none =>
        if e.cancelAt (r + 1) then none
        else
          match e.writeErr with
          | some m => some (m, r + 2)
          | none => none

/-- Same, from the parse stage on (mirrors `parseOnward`). -/
def restError (e : Env) (r : Nat) : Option (String × Nat) :=
  match e.parseErr with
  | some m => some (m, r)
  | none => if e.cancelAt r then none else transError e (r + 1)

/-- Same, for the whole run (mirrors `processJob`): the message of the
exception that reaches the catch block, if any, together with the index
of the `cancelled` read the catch block performs. -/
def firstError (e : Env) : Option (String × Nat) :=
  if e.isPdf then
    match e.convertErr with
    | some m => some (m, 0)
    | none => if e.cancelAt 0 then none else restError e 1
  else
    match e.copyErr with
    | some m => some (m, 0)
    | none => restError e 0

theorem transError_decomp (e : Env) (r : Nat) (m : String) (r2 : Nat)
    (h : transError e r = some (m, r2)) :
    ∃ l, translateOnward e r = l ++ catchBlock e r2 m ∧ l.all benignEv = true := by
  rcases ht : e.translateErr with _ | m1
  · cases hc1 : e.cancelAt r
    · rcases hq : e.qaErr with _ | m2
      · cases hc2 : e.cancelAt (r + 1)
        · rcases hw : e.writeErr with _ | m3
          · simp [transError, ht, hq, hw, hc1, hc2] at h
          · simp only [transError, ht, hq, hw, hc1, hc2, Bool.false_eq_true, if_false,
              Option.some.injEq, Prod.mk.injEq] at h
            obtain ⟨h1, h2⟩ := h
            subst h1
            subst h2
            refine ⟨[.update (some .translating) (some 20) (some "翻譯中...") none false,
              .stage .translate, .check false, .stage .qa, .check false,
              .update (some .packing) (some 95) (some "正在打包翻譯後的文件...") none false,
              .stage .write], ?_, by simp [benignEv]⟩
            simp [translateOnward, ht, hq, hw, hc1, hc2]
        · simp [transError, ht, hq, hc1, hc2] at h
      · simp only [transError, ht, hq, hc1, Bool.false_eq_true, if_false,
          Option.some.injEq, Prod.mk.injEq] at h
        obtain ⟨h1, h2⟩ := h
        subst h1
        subst h2
        refine ⟨[.update (some .translating) (some 20) (some "翻譯中...") none false,
          .stage .translate, .check false, .stage .qa], ?_, by simp [benignEv]⟩
        simp [translateOnward, ht, hq, hc1]
    · simp [transError, ht, hc1] at h
  · simp only [transError, ht, Option.some.injEq, Prod.mk.injEq] at h
    obtain ⟨h1, h2⟩ := h
    subst h1
    subst h2
    refine ⟨[.update (some .translating) (some 20) (some "翻譯中...") none false,
      .stage .translate], ?_, by simp [benignEv]⟩
    simp [translateOnward, ht]

theorem restError_decomp (e : Env) (r : Nat) (m : String) (r2 : Nat)
    (h : restError e r = some (m, r2)) :
    ∃ l, parseOnward e r = l ++ catchBlock e r2 m ∧ l.all benignEv = true := by
  rcases hp : e.parseErr with _ | m1
  · cases hc : e.cancelAt r
    · have h2 : transError e (r + 1) = some (m, r2) := by
        simpa [restError, hp, hc] using h
      obtain ⟨l, hl, hb⟩ := transError_decomp e (r + 1) m r2 h2
      refine ⟨[.update (some .parsingDocx) (some 15) (some "正在解析 DOCX 文件...") none false,
        .stage .parse, .setTotalSegments e.numSegments, .check false] ++ l, ?_, ?_⟩
      · simp only [parseOnward, hp, hc, Bool.false_eq_true, if_false, hl,
          List.cons_append, List.nil_append]
      · simp [List.all_append, benignEv, hb]
    · simp [restError, hp, hc] at h
  · simp only [restError, hp, Option.some.injEq, Prod.mk.injEq] at h
    obtain ⟨h1, h2⟩ := h
    subst h1
    subst h2
    refine ⟨[.update (some .parsingDocx) (some 15) (some "正在解析 DOCX 文件...") none false,
      .stage .parse], ?_, by simp [benignEv]⟩
    simp [parseOnward, hp]

theorem firstError_decomp (e : Env) (m : String) (r2 : Nat)
    (h : firstError e = some (m, r2)) :
    ∃ l, processJob e = l ++ catchBlock e r2 m ∧ l.all benignEv = true := by
  cases hpdf : e.isPdf
  · rcases hcp : e.copyErr with _ | m1
    · have h2 : restError e 0 = some (m, r2) := by
        simpa [firstError, hpdf, hcp] using h
      obtain ⟨l, hl, hb⟩ := restError_decomp e 0 m r2 h2
      refine ⟨[.setStartedAt, .stage .copy] ++ l, ?_, ?_⟩
      · simp only [processJob, hpdf, Bool.false_eq_true, if_false, hcp, hl,
          List.cons_append, List.nil_append]
      · simp [List.all_append, benignEv, hb]
    · simp only [firstError, hpdf, hcp, Bool.false_eq_true, if_false,
        Option.some.injEq, Prod.mk.injEq] at h
      obtain ⟨h1, h2⟩ := h
      subst h1
      subst h2
      refine ⟨[.setStartedAt, .stage .copy], ?_, by simp [benignEv]⟩
      simp [processJob, hpdf, hcp]
  · rcases hcv : e.convertErr with _ | m1
    · cases hc0 : e.cancelAt 0
      · have h2 : restError e 1 = some (m, r2) := by
          simpa [firstError, hpdf, hcv, hc0] using h
        obtain ⟨l, hl, hb⟩ := restError_decomp e 1 m r2 h2
        refine ⟨[.setStartedAt,
          .update (some .converting) (some 5) (some "正在將 PDF 轉換為 DOCX...") none false,
          .stage .convert, .check false] ++ l, ?_, ?_⟩
        · simp only [processJob, hpdf, if_true, hcv, hc0, Bool.false_eq_true, if_false, hl,
            List.cons_append, List.nil_append]
        · simp [List.all_append, benignEv, hb]
      · simp [firstError, hpdf, hcv, hc0] at h
    · simp only [firstError, hpdf, hcv, if_true, Option.some.injEq, Prod.mk.injEq] at h
      obtain ⟨h1, h2⟩ := h
      subst h1
      subst h2
      refine ⟨[.setStartedAt,
        .update (some .converting) (some 5) (some "正在將 PDF 轉換為 DOCX...") none false,
        .stage .convert], ?_, by simp [benignEv]⟩
      simp [processJob, hpdf, hcv]

/-- A benign event keeps error message, finish stamp, output path, and
non-terminality of the status. -/
theorem applyEv_benign (j : JobState) (x : Ev) (hb : benignEv x = true) :
    (applyEv j x).errorMessage = j.errorMessage ∧
    (applyEv j x).finishedAt = j.finishedAt ∧
    (applyEv j x).outputPath = j.outputPath ∧
    ((applyEv j x).status = .done → j.status = .done) ∧
    ((applyEv j x).status = .error → j.status = .error) := by
  cases x with
  | update s p msg em fin =>
    simp only [benignEv, Bool.and_eq_true, Bool.not_eq_true', Option.isNone_iff_eq_none] at hb
    obtain ⟨⟨hs, hem⟩, hfin⟩ := hb
    subst hem
    subst hfin
    rcases s with _ | s'
    · simp [applyEv]
    · cases s' <;> simp_all [applyEv]
  | finishJob s => simp [benignEv] at hb
  | setOutputPath => simp [benignEv] at hb
  | setStartedAt => simp [applyEv]
  | setTotalSegments n => simp [applyEv]
  | check b => simp [applyEv]
  | stage s => simp [applyEv]
  | cleanup => simp [applyEv]

theorem benign_foldl : ∀ (l : List Ev) (j : JobState), l.all benignEv = true →
    ((l.foldl applyEv j).errorMessage = j.errorMessage ∧
     (l.foldl applyEv j).finishedAt = j.finishedAt ∧
     (l.foldl applyEv j).outputPath = j.outputPath ∧
     ((l.foldl applyEv j).status = .done → j.status = .done) ∧
     ((l.foldl applyEv j).status = .error → j.status = .error))
  | [], j, _ => ⟨rfl, rfl, rfl, id, id⟩
  | x :: l, j, hb => by
    simp only [List.all_cons, Bool.and_eq_true] at hb
    rw [List.foldl_cons]
    obtain ⟨e1, e2, e3, e4, e5⟩ := applyEv_benign j x hb.1
    obtain ⟨f1, f2, f3, f4, f5⟩ := benign_foldl l (applyEv j x) hb.2
    exact ⟨f1.trans e1, f2.trans e2, f3.trans e3,
      fun hdone => e4 (f4 hdone), fun herr => e5 (f5 herr)⟩

theorem catchBlock_foldl_not_cancelled (e : Env) (r : Nat) (m : String)
    (j : JobState) (hc : e.cancelAt r = false) :
    ((catchBlock e r m).foldl applyEv j).status = .error ∧
    ((catchBlock e r m).foldl applyEv j).errorMessage =
      some (if m = "" then "Unknown error" else m) ∧
    ((catchBlock e r m).foldl applyEv j).finishedAt = true := by
  simp [catchBlock, hc, applyEv]

theorem catchBlock_foldl_cancelled (e : Env) (r : Nat) (m : String)
    (j : JobState) (hc : e.cancelAt r = true) :
    (catchBlock e r m).foldl applyEv j = j := by
  simp [catchBlock, hc, applyEv]

end Pipeline

namespace Pipeline

/-! Claim theorems for the pipeline state machine. -/

/-- A happy-path PDF environment on which the cancelled flag turns on
only during packing, after the last read the orchestrator performs. -/
def envCancelDuringPack : Env :=
  { isPdf := true, numSegments := 1, cancelAt := fun i => decide (4 ≤ i) }

/-- C5 counterexample: the orchestrator does not check `job.cancelled`
before the first stage nor after the packing stage, so the literal
"before and after every stage boundary" placement fails; consequently a
job whose flag is set while packing still transitions to `done` with
`outputPath` set. -/
theorem pipeline_checkpoint_counterexample :
    checksAroundStages (processJob envCancelDuringPack) = false ∧
    (finalJob envCancelDuringPack).status = .done ∧
    (finalJob envCancelDuringPack).outputPath = true :=
  ⟨by decide, by decide, by decide⟩

/-- C5 (amended): the orchestrator checks `job.cancelled` after
conversion, after parsing, after translation and after QA (not before
the first stage and not after packing), and whenever a check observes
the flag set the run stops immediately: nothing at all follows the
observation, so no `done` or `error` transition, no `outputPath`
assignment and no write-back occurs thereafter. -/
theorem pipeline_cancellation_checkpoints (e : Env) :
    checksAfterStages (processJob e) = true ∧
    ∀ t1 t2, processJob e = t1 ++ .check true :: t2 →
      t2 = [] ∧ Ev.finishJob .done ∉ t2 ∧
      (∀ s p msg em fin, .update s p msg em fin ∈ t2 → False) ∧
      Ev.setOutputPath ∉ t2 ∧ Ev.stage .write ∉ t2 := by
  refine ⟨processJob_checksAfter e, ?_⟩
  intro t1 t2 heq
  have h2 := stopsAtCancel_split t1 (processJob e) t2 (processJob_stops e) heq
  subst h2
  simp

/-- An environment whose cancelled flag is set from the start. -/
def envCancelledEarly : Env := { isPdf := true, cancelAt := fun _ => true }

/-- Witness for amended C5: applying the theorem to a PDF job cancelled
before the first checkpoint. -/
theorem pipeline_cancellation_checkpoints_witness :
    checksAfterStages (processJob envCancelledEarly) = true ∧
    (([] : List Ev) = [] ∧ Ev.finishJob .done ∉ ([] : List Ev) ∧
     (∀ s p msg em fin, .update s p msg em fin ∈ ([] : List Ev) → False) ∧
     Ev.setOutputPath ∉ ([] : List Ev) ∧ Ev.stage .write ∉ ([] : List Ev)) :=
  ⟨(pipeline_cancellation_checkpoints envCancelledEarly).1,
   (pipeline_cancellation_checkpoints envCancelledEarly).2
     [.setStartedAt,
      .update (some .converting) (some 5) (some "正在將 PDF 轉換為 DOCX...") none false,
      .stage .convert] [] (by decide)⟩

/-- An environment whose parse stage throws an exception with an empty
message. -/
def envEmptyError : Env := { parseErr := some "" }

/-- C6 counterexample: an exception whose message is the empty string is
recorded as `"Unknown error"` (the `error.message || "Unknown error"`
fallback), not as the exception's own (empty) message. -/
theorem pipeline_error_message_counterexample :
    (finalJob envEmptyError).status = .error ∧
    (finalJob envEmptyError).errorMessage = some "Unknown error" ∧
    ¬ (finalJob envEmptyError).errorMessage = some "" :=
  ⟨by decide, by decide, by decide⟩

/-- C6 (amended): when a stage throws and the cancelled flag is not set
at the catch block's read, the job ends in `error` with `errorMessage`
equal to the exception's message — or `"Unknown error"` when that
message is empty — and `finishedAt` stamped; when the flag is set there,
the exception is swallowed and the job keeps no error message, no finish
stamp, no output path, and no terminal `done`/`error` status. -/
theorem pipeline_error_handling (e : Env) (m : String) (r : Nat)
    (hfe : firstError e = some (m, r)) :
    (e.cancelAt r = false →
      (finalJob e).status = .error ∧
      (finalJob e).errorMessage = some (if m = "" then "Unknown error" else m) ∧
      (finalJob e).finishedAt = true) ∧
    (e.cancelAt r = true →
      (finalJob e).status ≠ .error ∧ (finalJob e).status ≠ .done ∧
      (finalJob e).errorMessage = none ∧ (finalJob e).finishedAt = false ∧
      (finalJob e).outputPath = false) := by
  obtain ⟨l, hsplit, hben⟩ := firstError_decomp e m r hfe
  have hfold : finalJob e = (catchBlock e r m).foldl applyEv (l.foldl applyEv createJob) := by
    rw [finalJob, hsplit, List.foldl_append]
  obtain ⟨b1, b2, b3, b4, b5⟩ := benign_foldl l createJob hben
  constructor
  · intro hc
    rw [hfold]
    exact catchBlock_foldl_not_cancelled e r m (l.foldl applyEv createJob) hc
  · intro hc
    rw [hfold, catchBlock_foldl_cancelled e r m _ hc]
    refine ⟨?_, ?_, b1, b2, b3⟩
    · intro habs
      have := b5 habs
      simp [createJob] at this
    · intro habs
      have := b4 habs
      simp [createJob] at this

/-- Environments whose parse stage throws, with and without a
concurrently set cancelled flag. -/
def envParseError : Env := { parseErr := some "boom" }

def envParseErrorCancelled : Env := { parseErr := some "x", cancelAt := fun _ => true }

/-- Witness for amended C6: both halves applied to concrete runs. -/
theorem pipeline_error_handling_witness :
    ((finalJob envParseError).status = .error ∧
     (finalJob envParseError).errorMessage =
       some (if "boom" = "" then "Unknown error" else "boom") ∧
     (finalJob envParseError).finishedAt = true) ∧
    ((finalJob envParseErrorCancelled).status ≠ .error ∧
     (finalJob envParseErrorCancelled).status ≠ .done ∧
     (finalJob envParseErrorCancelled).errorMessage = none ∧
     (finalJob envParseErrorCancelled).finishedAt = false ∧
     (finalJob envParseErrorCancelled).outputPath = false) :=
  ⟨(pipeline_error_handling envParseError "boom" 0 (by decide)).1 rfl,
   (pipeline_error_handling envParseErrorCancelled "x" 0 (by decide)).2 rfl⟩

/-- The observable (status, progress) pairs along a run. -/
def statusProgress (e : Env) : List (JobStatus × Nat) :=
  (jobStates e).map fun j => (j.status, j.progress)

/-- C9: along every happy-path run (no stage fails, no cancellation),
progress is monotonically non-decreasing within 0-100, and equals 5
while converting, 15 while (and after) parsing, 20 entering translation
and through QA, 95 before packing, and 100 at done (progress 0 while
still queued). -/
theorem pipeline_progress (e : Env)
    (h1 : e.convertErr = none) (h2 : e.copyErr = none) (h3 : e.parseErr = none)
    (h4 : e.translateErr = none) (h5 : e.qaErr = none) (h6 : e.writeErr = none)
    (hc : ∀ i, e.cancelAt i = false) :
    List.Chain' (fun a b => a.2 ≤ b.2) (statusProgress e) ∧
    (∀ x ∈ statusProgress e, x.2 ≤ 100) ∧
    (∀ x ∈ statusProgress e,
      (x.1 = .queued → x.2 = 0) ∧
      (x.1 = .converting → x.2 = 5) ∧
      (x.1 = .parsingDocx → x.2 = 15) ∧
      (x.1 = .translating → x.2 = 20) ∧
      (x.1 = .packing → x.2 = 95) ∧
      (x.1 = .done → x.2 = 100)) := by
  cases hpdf : e.isPdf
  · have hsp : statusProgress e =
        [(.queued, 0), (.queued, 0), (.queued, 0),
         (.parsingDocx, 15), (.parsingDocx, 15), (.parsingDocx, 15), (.parsingDocx, 15),
         (.translating, 20), (.translating, 20), (.translating, 20), (.translating, 20),
         (.translating, 20),
         (.packing, 95), (.packing, 95), (.packing, 95),
         (.done, 100), (.done, 100), (.done, 100)] := by
      simp [statusProgress, jobStates, processJob, parseOnward, translateOnward,
        h2, h3, h4, h5, h6, hc, hpdf, applyEv, createJob]
    rw [hsp]
    exact ⟨by simp [List.chain'_cons, List.chain'_singleton], by decide, by decide⟩
  · have hsp : statusProgress e =
        [(.queued, 0), (.queued, 0),
         (.converting, 5), (.converting, 5), (.converting, 5),
         (.parsingDocx, 15), (.parsingDocx, 15), (.parsingDocx, 15), (.parsingDocx, 15),
         (.translating, 20), (.translating, 20), (.translating, 20), (.translating, 20),
         (.translating, 20),
         (.packing, 95), (.packing, 95), (.packing, 95),
         (.done, 100), (.done, 100), (.done, 100)] := by
      simp [statusProgress, jobStates, processJob, parseOnward, translateOnward,
        h1, h3, h4, h5, h6, hc, hpdf, applyEv, createJob]
    rw [hsp]
    exact ⟨by simp [List.chain'_cons, List.chain'_singleton], by decide, by decide⟩

/-- A happy-path PDF environment. -/
def envHappyPdf : Env := { isPdf := true, numSegments := 2 }

/-- Witness for C9 on a concrete happy-path PDF run. -/
theorem pipeline_progress_witness :
    List.Chain' (fun a b => a.2 ≤ b.2) (statusProgress envHappyPdf) ∧
    (∀ x ∈ statusProgress envHappyPdf, x.2 ≤ 100) ∧
    (∀ x ∈ statusProgress envHappyPdf,
      (x.1 = .queued → x.2 = 0) ∧
      (x.1 = .converting → x.2 = 5) ∧
      (x.1 = .parsingDocx → x.2 = 15) ∧
      (x.1 = .translating → x.2 = 20) ∧
      (x.1 = .packing → x.2 = 95) ∧
      (x.1 = .done → x.2 = 100)) :=
  pipeline_progress envHappyPdf rfl rfl rfl rfl rfl rfl (fun _ => rfl)

end Pipeline

end WordTrans
